import Mathlib

/-!
Verification development for the CDSCO SEC PDF search scripts
(three near-identical Streamlit variants; here referred to by the
hex tags of their file names: 002b0f, 5c3fc3 and 83bd0a).

Modelling conventions:
* A character is its Unicode code point (a `Nat`); a string is a
  `List Nat` (`Str`).  The Python str.lower is modelled by ASCII
  case folding, which covers every string the scripts handle.
* Network and library effects (requests, BeautifulSoup, PyPDF2,
  st.cache_data) enter the model as explicit inputs: a fetched page is a
  value, a PDF payload is a value, and the cache is explicit state.
-/

namespace Cdsco

/-- A string modelled as the list of its character code points. -/
abbrev Str := List Nat

/-- ASCII case folding of one code point, modelling the Python
str.lower on the character sets the scripts handle. -/
def toLowerN (c : Nat) : Nat := if 65 ≤ c ∧ c ≤ 90 then c + 32 else c

/-- Python s.lower() on a whole string. -/
def lowerN (s : Str) : Str := s.map toLowerN

theorem toLowerN_idem (c : Nat) : toLowerN (toLowerN c) = toLowerN c := by
  unfold toLowerN
  split
  · split <;> omega
  · rfl

theorem lowerN_idem (s : Str) : lowerN (lowerN s) = lowerN s := by
  induction s with
  | nil => rfl
  | cons c rest ih =>
    simp only [lowerN, List.map_cons, List.map_map] at *
    simp only [Function.comp_apply, toLowerN_idem]
    simpa [lowerN, Function.comp] using ih

theorem lowerN_length (s : Str) : (lowerN s).length = s.length := by
  simp [lowerN]

theorem lowerN_drop (s : Str) (n : Nat) :
    (lowerN s).drop n = lowerN (s.drop n) := by
  simp [lowerN, List.map_drop]

/-- Fuel-driven recursion for `str.count`; the fuel is always at
least the length of the text, so the `0, _ :: _` branch is unreachable. -/
def pyCountF (needle : Str) : Nat → Str → Nat
  | _, [] => if needle = [] then 1 else 0
  | 0, _ :: _ => 0
  | f + 1, c :: rest =>
    if needle.isPrefixOf (c :: rest) then
      1 + pyCountF needle f (rest.drop (needle.length - 1))
    else
      pyCountF needle f rest

/-- Python hay.count(needle) (source line 84 of 002b0f:
text_lower.count(keyword)): the number of non-overlapping
occurrences, scanning left to right and skipping the needle length
after each hit.  For an empty needle Python reports `len(hay) + 1`,
which the `[]` base case together with the unconditional prefix test
reproduces. -/
def pyCount (needle s : Str) : Nat := pyCountF needle s.length s

theorem pyCountF_nil (needle : Str) (f : Nat) :
    pyCountF needle f [] = if needle = [] then 1 else 0 := by
  cases f <;> rfl

theorem pyCountF_congr (needle : Str) :
    ∀ f1 : Nat, ∀ s : Str, ∀ f2 : Nat, s.length ≤ f1 → s.length ≤ f2 →
      pyCountF needle f1 s = pyCountF needle f2 s := by
  intro f1
  induction f1 with
  | zero =>
    intro s f2 h1 _
    have : s = [] := List.length_eq_zero.mp (Nat.le_zero.mp h1)
    subst this
    rw [pyCountF_nil, pyCountF_nil]
  | succ f ih =>
    intro s f2 h1 h2
    match s, f2 with
    | [], _ => rw [pyCountF_nil, pyCountF_nil]
    | c :: rest, 0 => simp at h2
    | c :: rest, g + 1 =>
      simp only [pyCountF]
      simp only [List.length_cons] at h1 h2
      by_cases hp : needle.isPrefixOf (c :: rest)
      · simp only [hp, if_true]
        have hd : (rest.drop (needle.length - 1)).length ≤ f := by
          simp only [List.length_drop]; omega
        have hd2 : (rest.drop (needle.length - 1)).length ≤ g := by
          simp only [List.length_drop]; omega
        rw [ih _ g hd hd2]
      · simp only [hp, if_false, Bool.false_eq_true]
        exact ih _ g (by omega) (by omega)

theorem pyCount_nil (needle : Str) :
    pyCount needle [] = if needle = [] then 1 else 0 := rfl

theorem pyCount_cons (needle : Str) (c : Nat) (rest : Str) :
    pyCount needle (c :: rest) =
      if needle.isPrefixOf (c :: rest) then
        1 + pyCount needle (rest.drop (needle.length - 1))
      else
        pyCount needle rest := by
  show pyCountF needle (rest.length + 1) (c :: rest) = _
  simp only [pyCountF]
  by_cases hp : needle.isPrefixOf (c :: rest)
  · simp only [hp, if_true]
    unfold pyCount
    rw [pyCountF_congr needle rest.length _ _
      (by simp only [List.length_drop]; omega) (Nat.le_refl _)]
  · simp only [hp, if_false, Bool.false_eq_true]
    rfl

/-- Fuel-driven recursion for the spec-side count. -/
def specCiCountF (kw : Str) : Nat → Str → Nat
  | _, [] => if kw = [] then 1 else 0
  | 0, _ :: _ => 0
  | f + 1, c :: rest =>
    if (lowerN kw).isPrefixOf (lowerN (c :: rest)) then
      1 + specCiCountF kw f (rest.drop (kw.length - 1))
    else
      specCiCountF kw f rest

/-- Spec-side definition (refinement target for C1): the number of
non-overlapping case-insensitive matches of `kw` in a text, scanning
the original-case text left to right with a case-insensitive prefix
test. -/
def specCiCount (kw t : Str) : Nat := specCiCountF kw t.length t

theorem pyCount_lowerN_aux (kw : Str) :
    ∀ f : Nat, ∀ t : Str, t.length ≤ f →
      pyCountF (lowerN kw) f (lowerN t) = specCiCountF kw f t := by
  intro f
  induction f with
  | zero =>
    intro t ht
    have : t = [] := List.length_eq_zero.mp (Nat.le_zero.mp ht)
    subst this
    simp only [lowerN, List.map_nil, pyCountF, specCiCountF]
    by_cases hk : kw = []
    · simp [hk]
    · have : lowerN kw ≠ [] := by
        simpa [lowerN] using hk
      simp [hk, this, lowerN]
  | succ f ih =>
    intro t ht
    match t with
    | [] =>
      simp only [lowerN, List.map_nil, pyCountF, specCiCountF]
      by_cases hk : kw = []
      · simp [hk]
      · have : lowerN kw ≠ [] := by simpa [lowerN] using hk
        simp [hk, this, lowerN]
    | c :: rest =>
      have hmap : lowerN (c :: rest) = toLowerN c :: lowerN rest := rfl
      rw [hmap]
      simp only [pyCountF, specCiCountF]
      rw [← hmap]
      simp only [List.length_cons] at ht
      by_cases hp : (lowerN kw).isPrefixOf (lowerN (c :: rest))
      · simp only [hp, if_true]
        have hlen : (lowerN kw).length - 1 = kw.length - 1 := by
          rw [lowerN_length]
        rw [hlen, lowerN_drop]
        rw [ih _ (by simp only [List.length_drop]; omega)]
      · simp only [hp, if_false, Bool.false_eq_true]
        exact ih _ (by omega)

/-- The count the code computes — `text.lower().count(keyword.lower())`
— equals the number the spec defines of non-overlapping case-insensitive
matches of the original keyword in the original text. -/
theorem pyCount_lowerN (kw t : Str) :
    pyCount (lowerN kw) (lowerN t) = specCiCount kw t := by
  unfold pyCount specCiCount
  rw [lowerN_length]
  exact pyCount_lowerN_aux kw t.length t (Nat.le_refl _)

/-! ## Snippet extraction

`search_keyword_in_pdfs` builds the regex
`(.{0,30}<keyword>.{0,30})` with `re.IGNORECASE` (but not `re.DOTALL`,
so `.` does not cross a newline) and walks `finditer` over the
original-case text.  The functions below embed exactly that matcher
for this pattern shape: leftmost match, greedy (longest-first) gap
before the keyword, greedy tail after it, scanning resuming at each
match end. -/

/-- Python whitespace, as stripped by `str.strip`. -/
def isSpaceN (c : Nat) : Bool :=
  c == 32 || c == 9 || c == 10 || c == 11 || c == 12 || c == 13

/-- Python str.strip(). -/
def pyStrip (s : Str) : Str :=
  ((s.dropWhile isSpaceN).reverse.dropWhile isSpaceN).reverse

/-- Case-insensitive occurrence of `kw` at position `p` of `text`
(what `re.IGNORECASE` matching of the literal keyword tests). -/
def occAt (text kw : Str) (p : Nat) : Bool :=
  (lowerN kw).isPrefixOf (lowerN (text.drop p))

/-- The longest stretch `.{0,30}` can consume starting at position
`i`: at most 30 characters and never across a newline (code 10). -/
def maxDot (text : Str) (i : Nat) : Nat :=
  min 30 ((text.drop i).takeWhile (fun c => c != 10)).length

/-- Greedy gap search: the regex engine tries the longest gap first,
so `tryGaps text kw j g` returns the largest gap `g' ≤ g` such that
the keyword occurs at `j + g'`, if any. -/
def tryGaps (text kw : Str) (j : Nat) : Nat → Option Nat
  | 0 => if occAt text kw j then some 0 else none
  | g + 1 =>
    if occAt text kw (j + (g + 1)) then some (g + 1)
    else tryGaps text kw j g

/-- Leftmost match search: the first scan position `j' ≥ j` at which
the pattern matches, together with the greedy gap chosen there. -/
def findMatchFrom (text kw : Str) : Nat → Nat → Option (Nat × Nat)
  | 0, _ => none
  | fuel + 1, j =>
    match tryGaps text kw j (maxDot text j) with
    | some g => some (j, g)
    | none => findMatchFrom text kw fuel (j + 1)

/-- The finditer walk over the whole text: each match is recorded as
`(start, gap, tail)` — the match spans
`[start, start + gap + kw.length + tail)` — and scanning resumes at
the end of the match. -/
def findMatches (text kw : Str) : Nat → Nat → List (Nat × Nat × Nat)
  | 0, _ => []
  | fuel + 1, start =>
    match findMatchFrom text kw (text.length + 1) start with
    | none => []
    | some (j, g) =>
      let t := maxDot text (j + g + kw.length)
      (j, g, t) :: findMatches text kw fuel (j + g + kw.length + t)

/-- Python match.group(1).strip() for one recorded match. -/
def snippetOf (text kw : Str) (m : Nat × Nat × Nat) : Str :=
  pyStrip ((text.drop m.1).take (m.2.1 + kw.length + m.2.2))

/-- All stripped context snippets, in text order (before the `[:5]`
truncation). -/
def allSnippets (text kw : Str) : List Str :=
  (findMatches text kw (text.length + 1) 0).map (snippetOf text kw)

/-- Spec-side definition (refinement target for C2): the snippet the
spec promises for a keyword occurrence at position `p` — the up-to-30
characters before and after the occurrence, clipped at the text
boundaries, trimmed of leading and trailing whitespace. -/
def specSnippetAt (text kw : Str) (p : Nat) : Str :=
  pyStrip ((text.drop (p - 30)).take (min 30 p + kw.length + 30))

/-! ## The search engine and the presentation pipeline -/

/-- One element of the list `search_keyword_in_pdfs` returns (url,
occurrences, count); the 5c3fc3 and 83bd0a variants carry extra
identification fields that play no role in the claims. -/
structure SearchResult where
  url : Str
  occurrences : List Str
  count : Nat
deriving DecidableEq

/-- The loop body of `search_keyword_in_pdfs` for one document
`(url, extracted text)`, with `kw` the already-lowercased keyword:
documents with empty text are skipped, a document is reported iff the
lowered keyword is a substring of the lowered text, the count is
`text_lower.count(keyword)` and the snippets are the first five regex
matches. -/
def searchOne (kw : Str) (d : Str × Str) : Option SearchResult :=
  if d.2 = [] then none
  else if List.IsInfix kw (lowerN d.2) then
    some ⟨d.1, (allSnippets d.2 kw).take 5, pyCount kw (lowerN d.2)⟩
  else none

/-- Models search_keyword_in_pdfs(pdf_links, keyword): the keyword
is lowercased once (keyword = keyword.lower()), then each document is
processed in input order. -/
def searchKeywordInPdfs (docs : List (Str × Str)) (keyword : Str) :
    List SearchResult :=
  docs.filterMap (searchOne (lowerN keyword))

/-- Insert into a descending-by-count list, before the first element
of smaller-or-equal count (so an element inserted later but coming
earlier in the input precedes its ties — the stable behaviour of
Python sorted with reverse=True). -/
def insertDesc (r : SearchResult) : List SearchResult → List SearchResult
  | [] => [r]
  | x :: xs =>
    if x.count ≤ r.count then r :: x :: xs
    else x :: insertDesc r xs

/-- Models sorted(results, key=count, reverse=True) of the source: a
stable descending sort; any stable sort with this comparator produces
the same list as the Python Timsort, so insertion sort is a faithful
model. -/
def pySortDesc : List SearchResult → List SearchResult
  | [] => []
  | r :: rs => insertDesc r (pySortDesc rs)

/-- The ranked sequence `main` iterates over (002b0f line 131). -/
def rankedResults (docs : List (Str × Str)) (kw : Str) : List SearchResult :=
  pySortDesc (searchKeywordInPdfs docs kw)

/-- The results `main` actually displays: the ranked sequence with
entries whose count falls below min_matches skipped
(002b0f lines 131-133). -/
def displayedResults (docs : List (Str × Str)) (kw : Str)
    (minMatches : Nat) : List SearchResult :=
  (rankedResults docs kw).filter fun r => ! decide (r.count < minMatches)

/-! ## Shared sample data

`textAB` is the string abab followed by 31 times the letter x,
`kwAB` the keyword ab (code points 97, 98; 120 is x, 117 is u).  The
keyword occurs at positions 0 and 2; the regex matcher emits a single
snippet spanning positions 0‥33, because the greedy `.{0,30}` before
the keyword reaches past the first occurrence to the second. -/

def docU : Str := [117]

def textAB : Str := [97, 98, 97, 98] ++ List.replicate 31 120

def kwAB : Str := [97, 98]

/-- The single search result the pipeline produces for `textAB`. -/
def resAB : SearchResult :=
  ⟨docU, [[97, 98, 97, 98] ++ List.replicate 30 120], 2⟩

/-! ## Membership characterisation of search results -/

theorem searchOne_eq_some {kw : Str} {d : Str × Str} {r : SearchResult}
    (h : searchOne kw d = some r) :
    r.url = d.1 ∧ r.occurrences = (allSnippets d.2 kw).take 5 ∧
      r.count = pyCount kw (lowerN d.2) := by
  unfold searchOne at h
  by_cases h1 : d.2 = []
  · simp [h1] at h
  · simp only [h1, if_false] at h
    by_cases h2 : List.IsInfix kw (lowerN d.2)
    · simp only [h2, if_true, Option.some.injEq] at h
      subst h
      exact ⟨rfl, rfl, rfl⟩
    · simp [h2] at h

theorem mem_search {docs : List (Str × Str)} {keyword : Str}
    {r : SearchResult} (h : r ∈ searchKeywordInPdfs docs keyword) :
    ∃ d ∈ docs, searchOne (lowerN keyword) d = some r := by
  unfold searchKeywordInPdfs at h
  rcases List.mem_filterMap.mp h with ⟨d, hd, hs⟩
  exact ⟨d, hd, hs⟩

/-- C1.  The count stored in a search result is the number of
non-overlapping case-insensitive matches of the keyword in the
text of that document, and the whole search output is invariant under any
change of the keyword that preserves its case folding (in particular
under any case permutation). -/
theorem searchCount_is_ci_count (docs : List (Str × Str)) (kw : Str) :
    (∀ r ∈ searchKeywordInPdfs docs kw,
        ∃ d ∈ docs, r.url = d.1 ∧ r.count = specCiCount kw d.2) ∧
      (∀ kw2 : Str, lowerN kw2 = lowerN kw →
        searchKeywordInPdfs docs kw2 = searchKeywordInPdfs docs kw) := by
  constructor
  · intro r hr
    rcases mem_search hr with ⟨d, hd, hs⟩
    rcases searchOne_eq_some hs with ⟨hurl, _, hcount⟩
    exact ⟨d, hd, hurl, by rw [hcount, pyCount_lowerN]⟩
  · intro kw2 h2
    unfold searchKeywordInPdfs
    rw [h2]

/-- Witness for C1, at `textAB`/`kwAB`: the reported count 2 is the
case-insensitive match count, and searching for AB (65, 66) gives
the same output as searching for ab. -/
theorem searchCount_is_ci_count_witness :
    resAB.count = specCiCount kwAB textAB ∧
      searchKeywordInPdfs [(docU, textAB)] [65, 66] =
        searchKeywordInPdfs [(docU, textAB)] kwAB := by
  constructor
  · obtain ⟨d, hd, _, hc⟩ :=
      (searchCount_is_ci_count [(docU, textAB)] kwAB).1 resAB (by decide)
    rcases List.mem_singleton.mp hd with rfl
    exact hc
  · exact (searchCount_is_ci_count [(docU, textAB)] kwAB).2 [65, 66] (by decide)

/-! ## Ranking: sortedness and stability -/

theorem mem_insertDesc {a r : SearchResult} :
    ∀ l : List SearchResult, a ∈ insertDesc r l ↔ a = r ∨ a ∈ l := by
  intro l
  induction l with
  | nil => simp [insertDesc]
  | cons x xs ih =>
    simp only [insertDesc]
    by_cases h : x.count ≤ r.count
    · simp [h, List.mem_cons]
    · simp only [h, if_false, List.mem_cons, ih]
      tauto

theorem mem_pySortDesc {a : SearchResult} :
    ∀ l : List SearchResult, a ∈ pySortDesc l ↔ a ∈ l := by
  intro l
  induction l with
  | nil => simp [pySortDesc]
  | cons x xs ih => simp [pySortDesc, mem_insertDesc, ih]

theorem insertDesc_sorted {r : SearchResult} :
    ∀ l : List SearchResult,
      l.Pairwise (fun a b => b.count ≤ a.count) →
      (insertDesc r l).Pairwise (fun a b => b.count ≤ a.count) := by
  intro l
  induction l with
  | nil => intro _; simp [insertDesc]
  | cons x xs ih =>
    intro hs
    rcases List.pairwise_cons.mp hs with ⟨hx, hxs⟩
    simp only [insertDesc]
    by_cases h : x.count ≤ r.count
    · simp only [h, if_true]
      refine List.pairwise_cons.mpr ⟨?_, hs⟩
      intro b hb
      rcases List.mem_cons.mp hb with rfl | hb
      · exact h
      · exact Nat.le_trans (hx b hb) h
    · simp only [h, if_false]
      refine List.pairwise_cons.mpr ⟨?_, ih hxs⟩
      intro b hb
      rcases (mem_insertDesc _).mp hb with rfl | hb
      · omega
      · exact hx b hb

theorem pySortDesc_sorted :
    ∀ l : List SearchResult,
      (pySortDesc l).Pairwise (fun a b => b.count ≤ a.count) := by
  intro l
  induction l with
  | nil => simp [pySortDesc]
  | cons x xs ih => exact insertDesc_sorted _ ih

theorem filter_insertDesc (c : Nat) (r : SearchResult) :
    ∀ l : List SearchResult,
      (insertDesc r l).filter (fun x => decide (x.count = c)) =
        (if r.count = c then [r] else []) ++
          l.filter (fun x => decide (x.count = c)) := by
  intro l
  induction l with
  | nil =>
    simp only [insertDesc, List.filter]
    by_cases h : r.count = c <;> simp [h]
  | cons x xs ih =>
    simp only [insertDesc]
    by_cases h : x.count ≤ r.count
    · simp only [h, if_true, List.filter]
      by_cases hr : r.count = c <;> simp [hr]
    · simp only [h, if_false, List.filter_cons, ih]
      by_cases hx : x.count = c
      · have hr : ¬ r.count = c := by omega
        simp [hx, hr]
      · simp [hx]

theorem filter_pySortDesc (c : Nat) :
    ∀ l : List SearchResult,
      (pySortDesc l).filter (fun x => decide (x.count = c)) =
        l.filter (fun x => decide (x.count = c)) := by
  intro l
  induction l with
  | nil => rfl
  | cons x xs ih =>
    simp only [pySortDesc, filter_insertDesc, ih, List.filter_cons]
    by_cases hx : x.count = c <;> simp [hx]

theorem search_url_sublist (keyword : Str) :
    ∀ docs : List (Str × Str),
      ((searchKeywordInPdfs docs keyword).map SearchResult.url).Sublist
        (docs.map Prod.fst) := by
  intro docs
  induction docs with
  | nil => simp [searchKeywordInPdfs]
  | cons d ds ih =>
    unfold searchKeywordInPdfs at *
    rw [List.filterMap_cons]
    cases hs : searchOne (lowerN keyword) d with
    | none =>
      simp only [List.map_cons]
      exact ih.cons _
    | some r =>
      rcases searchOne_eq_some hs with ⟨hurl, _, _⟩
      simp only [List.map_cons, hurl]
      exact ih.cons₂ _

/-- C3.  The ranked sequence is sorted by descending count; for every
count value `c`, the tied results appear in exactly the order the
search produced them, which in turn follows the input document
order. -/
theorem ranking_sorted_stable (docs : List (Str × Str)) (kw : Str) :
    (rankedResults docs kw).Pairwise (fun a b => b.count ≤ a.count) ∧
      (∀ c : Nat,
        (rankedResults docs kw).filter (fun r => decide (r.count = c)) =
          (searchKeywordInPdfs docs kw).filter
            (fun r => decide (r.count = c))) ∧
      (∀ c : Nat,
        (((rankedResults docs kw).filter
            (fun r => decide (r.count = c))).map SearchResult.url).Sublist
          (docs.map Prod.fst)) := by
  refine ⟨pySortDesc_sorted _, fun c => filter_pySortDesc c _, fun c => ?_⟩
  unfold rankedResults
  rw [filter_pySortDesc]
  exact ((searchKeywordInPdfs docs kw).filter_sublist.map
    SearchResult.url).trans (search_url_sublist kw docs)

/-- C4.  A result that survives the minimum-match filter is an
unchanged element of the unfiltered search output: it meets the
threshold, and its reported count is still the full
`text_lower.count(keyword)` of its document. -/
theorem threshold_filter_frame (docs : List (Str × Str)) (kw : Str)
    (minMatches : Nat) (r : SearchResult)
    (h : r ∈ displayedResults docs kw minMatches) :
    minMatches ≤ r.count ∧ r ∈ searchKeywordInPdfs docs kw ∧
      ∃ d ∈ docs, r.url = d.1 ∧ r.count = pyCount (lowerN kw) (lowerN d.2) := by
  unfold displayedResults at h
  rcases List.mem_filter.mp h with ⟨hmem, hcond⟩
  have hge : minMatches ≤ r.count := by
    by_cases hlt : r.count < minMatches
    · simp [hlt] at hcond
    · omega
  have hmem2 : r ∈ searchKeywordInPdfs docs kw :=
    (mem_pySortDesc _).mp hmem
  rcases mem_search hmem2 with ⟨d, hd, hs⟩
  rcases searchOne_eq_some hs with ⟨hurl, _, hcount⟩
  exact ⟨hge, hmem2, d, hd, hurl, hcount⟩

/-- Witness for C4, at `textAB`/`kwAB` with threshold 1. -/
theorem threshold_filter_frame_witness :
    1 ≤ resAB.count ∧ resAB ∈ searchKeywordInPdfs [(docU, textAB)] kwAB ∧
      resAB.count = pyCount (lowerN kwAB) (lowerN textAB) := by
  obtain ⟨hge, hmem, d, hd, _, hcount⟩ :=
    threshold_filter_frame [(docU, textAB)] kwAB 1 resAB (by decide)
  rcases List.mem_singleton.mp hd with rfl
  exact ⟨hge, hmem, hcount⟩

/-! ## Soundness of the snippet matcher -/

theorem tryGaps_sound {text kw : Str} {j : Nat} :
    ∀ g g' : Nat, tryGaps text kw j g = some g' →
      g' ≤ g ∧ occAt text kw (j + g') = true := by
  intro g
  induction g with
  | zero =>
    intro g' h
    simp only [tryGaps] at h
    by_cases ho : occAt text kw j
    · simp only [ho, if_true, Option.some.injEq] at h
      subst h
      simpa using ho
    · simp [ho] at h
  | succ g ih =>
    intro g' h
    simp only [tryGaps] at h
    by_cases ho : occAt text kw (j + (g + 1))
    · simp only [ho, if_true, Option.some.injEq] at h
      subst h
      exact ⟨Nat.le_refl _, ho⟩
    · simp only [ho, if_false, Bool.false_eq_true] at h
      rcases ih g' h with ⟨h1, h2⟩
      exact ⟨Nat.le_trans h1 (Nat.le_succ _), h2⟩

theorem findMatchFrom_sound {text kw : Str} :
    ∀ fuel j j' g, findMatchFrom text kw fuel j = some (j', g) →
      j ≤ j' ∧ tryGaps text kw j' (maxDot text j') = some g := by
  intro fuel
  induction fuel with
  | zero => intro j j' g h; simp [findMatchFrom] at h
  | succ fuel ih =>
    intro j j' g h
    simp only [findMatchFrom] at h
    cases ht : tryGaps text kw j (maxDot text j) with
    | some g0 =>
      rw [ht] at h
      simp only [Option.some.injEq, Prod.mk.injEq] at h
      rcases h with ⟨rfl, rfl⟩
      exact ⟨Nat.le_refl _, ht⟩
    | none =>
      rw [ht] at h
      rcases ih (j + 1) j' g h with ⟨h1, h2⟩
      exact ⟨by omega, h2⟩

theorem maxDot_le_30 (text : Str) (i : Nat) : maxDot text i ≤ 30 :=
  Nat.min_le_left _ _

theorem occAt_lt_length {text kw : Str} {p : Nat} (hk : kw ≠ [])
    (h : occAt text kw p = true) : p < text.length := by
  unfold occAt at h
  have hpre := List.isPrefixOf_iff_prefix.mp h
  have hlen := hpre.length_le
  simp only [lowerN, List.length_map, List.length_drop] at hlen
  have : 0 < kw.length := List.length_pos.mpr hk
  omega

theorem findMatches_sound {text kw : Str} :
    ∀ fuel start m, m ∈ findMatches text kw fuel start →
      start ≤ m.1 ∧ occAt text kw (m.1 + m.2.1) = true ∧
        m.2.1 ≤ 30 ∧ m.2.2 ≤ 30 := by
  intro fuel
  induction fuel with
  | zero => intro start m h; simp [findMatches] at h
  | succ fuel ih =>
    intro start m h
    simp only [findMatches] at h
    cases hf : findMatchFrom text kw (text.length + 1) start with
    | none => rw [hf] at h; simp at h
    | some jg =>
      rw [hf] at h
      rcases jg with ⟨j, g⟩
      rcases findMatchFrom_sound _ _ _ _ hf with ⟨hj, htry⟩
      rcases tryGaps_sound _ _ htry with ⟨hg, hocc⟩
      rcases List.mem_cons.mp h with rfl | h
      · exact ⟨hj, hocc, Nat.le_trans hg (maxDot_le_30 _ _),
          maxDot_le_30 _ _⟩
      · rcases ih _ m h with ⟨hs, h1, h2, h3⟩
        exact ⟨by omega, h1, h2, h3⟩

/-- Decides whether s is a context window snippet: there is a
case-insensitive keyword occurrence such that `s` is the trimmed text
of a window reaching at most 30 characters before the occurrence and
at most 30 after it (clipped at the text boundaries, and stopping at
newlines, which `.` does not match). -/
def isWindowSnippet (text kw s : Str) : Bool :=
  (List.range text.length).any fun j =>
    (List.range 31).any fun g =>
      (List.range 31).any fun t =>
        occAt text kw (j + g) &&
          decide (s = pyStrip ((text.drop j).take (g + kw.length + t)))

/-- C2, counterexample to the claim as stated: in `textAB` the
keyword ab occurs at position 0, but the emitted snippet list of
the (unique) search result does not contain the promised up-to-30
characters window around that occurrence — the greedy `.{0,30}`
swallows the second occurrence at position 2, producing one longer
snippet instead. -/
theorem snippet_per_occurrence_counterexample :
    searchKeywordInPdfs [(docU, textAB)] kwAB = [resAB] ∧
      occAt textAB kwAB 0 = true ∧
      specSnippetAt textAB kwAB 0 ∉ resAB.occurrences := by
  refine ⟨by decide, by decide, by decide⟩

/-- C2 as amended.  Every snippet the search emits is the trimmed
text of a window extending at most 30 characters before and at most
30 characters after some case-insensitive keyword occurrence in its
document (clipped at text boundaries and newlines); an occurrence
absorbed into the window of an earlier match contributes no snippet of its
own, and the list is truncated to the first five matches. -/
theorem snippet_window_sound (docs : List (Str × Str)) (keyword : Str)
    (r : SearchResult) (s : Str) (hk : keyword ≠ [])
    (hr : r ∈ searchKeywordInPdfs docs keyword) (hs : s ∈ r.occurrences) :
    ∃ d ∈ docs, isWindowSnippet d.2 (lowerN keyword) s = true := by
  rcases mem_search hr with ⟨d, hd, hone⟩
  rcases searchOne_eq_some hone with ⟨_, hocc, _⟩
  refine ⟨d, hd, ?_⟩
  rw [hocc] at hs
  have hs2 : s ∈ allSnippets d.2 (lowerN keyword) :=
    List.mem_of_mem_take hs
  unfold allSnippets at hs2
  rcases List.mem_map.mp hs2 with ⟨m, hm, hsnip⟩
  have hkl : lowerN keyword ≠ [] := by
    simpa [lowerN] using hk
  rcases findMatches_sound _ _ m hm with ⟨_, hocc2, hg, ht⟩
  unfold isWindowSnippet
  rw [List.any_eq_true]
  refine ⟨m.1, List.mem_range.mpr ?_, ?_⟩
  · have := occAt_lt_length hkl hocc2
    omega
  · rw [List.any_eq_true]
    refine ⟨m.2.1, List.mem_range.mpr (by omega), ?_⟩
    rw [List.any_eq_true]
    refine ⟨m.2.2, List.mem_range.mpr (by omega), ?_⟩
    rw [Bool.and_eq_true]
    refine ⟨hocc2, decide_eq_true ?_⟩
    rw [← hsnip]
    rfl

/-- Witness for the amended C2, at `textAB`/`kwAB`: the emitted
snippet (positions 0‥33 of the text) is a context window around an
occurrence. -/
theorem snippet_window_sound_witness :
    isWindowSnippet textAB (lowerN kwAB)
      ([97, 98, 97, 98] ++ List.replicate 30 120) = true := by
  obtain ⟨d, hd, h⟩ :=
    snippet_window_sound [(docU, textAB)] kwAB resAB
      ([97, 98, 97, 98] ++ List.replicate 30 120)
      (by decide) (by decide) (by decide)
  rcases List.mem_singleton.mp hd with rfl
  exact h

/-! ## The greedy count dominates the number of regex matches

`pyCount` scans greedily; the lemmas below show it is antitone in
the starting position and drops by at most one when up to a needle
length of characters is removed, hence every occurrence lowers the
remaining budget by at least one — which bounds the number of
non-overlapping regex matches by the reported count. -/

theorem countDrop (K : Str) (hK : K ≠ []) :
    ∀ n : Nat, ∀ s : Str, s.length ≤ n →
      (∀ d, pyCount K (s.drop d) ≤ pyCount K s) ∧
      (∀ d, d ≤ K.length → pyCount K s ≤ 1 + pyCount K (s.drop d)) := by
  have hL : 1 ≤ K.length := List.length_pos.mpr hK
  intro n
  induction n with
  | zero =>
    intro s hs
    have : s = [] := List.length_eq_zero.mp (Nat.le_zero.mp hs)
    subst this
    exact ⟨fun d => by simp, fun d _ => by simp⟩
  | succ n ih =>
    intro s hs
    match s with
    | [] => exact ⟨fun d => by simp, fun d _ => by simp⟩
    | x :: rest =>
      simp only [List.length_cons] at hs
      have hrest : rest.length ≤ n := by omega
      constructor
      · intro d
        match d with
        | 0 => simp
        | e + 1 =>
          have hdrop : (x :: rest).drop (e + 1) = rest.drop e := rfl
          rw [hdrop, pyCount_cons]
          by_cases hp : K.isPrefixOf (x :: rest)
          · simp only [hp, if_true]
            by_cases hcase : K.length ≤ e + 1
            · have heq : rest.drop e =
                  (rest.drop (K.length - 1)).drop (e + 1 - K.length) := by
                rw [List.drop_drop]
                congr 1
                omega
              rw [heq]
              have hA := (ih (rest.drop (K.length - 1))
                (by simp only [List.length_drop]; omega)).1 (e + 1 - K.length)
              omega
            · have heq : rest.drop (K.length - 1) =
                  (rest.drop e).drop (K.length - 1 - e) := by
                rw [List.drop_drop]
                congr 1
                omega
              have hB := (ih (rest.drop e)
                (by simp only [List.length_drop]; omega)).2
                (K.length - 1 - e) (by omega)
              rw [heq]
              omega
          · simp only [hp, if_false, Bool.false_eq_true]
            exact (ih rest hrest).1 e
      · intro d hd
        match d with
        | 0 => simp
        | e + 1 =>
          have hdrop : (x :: rest).drop (e + 1) = rest.drop e := rfl
          rw [hdrop, pyCount_cons]
          by_cases hp : K.isPrefixOf (x :: rest)
          · simp only [hp, if_true]
            have heq : rest.drop (K.length - 1) =
                (rest.drop e).drop (K.length - 1 - e) := by
              rw [List.drop_drop]
              congr 1
              omega
            have hA := (ih (rest.drop e)
              (by simp only [List.length_drop]; omega)).1 (K.length - 1 - e)
            rw [heq]
            omega
          · simp only [hp, if_false, Bool.false_eq_true]
            exact (ih rest hrest).2 e (by omega)

theorem pyCount_drop_le (K : Str) (hK : K ≠ []) (s : Str) (d : Nat) :
    pyCount K (s.drop d) ≤ pyCount K s :=
  (countDrop K hK s.length s (Nat.le_refl _)).1 d

theorem countOcc_ge (K : Str) (hK : K ≠ []) :
    ∀ n : Nat, ∀ s : Str, s.length ≤ n → ∀ p : Nat,
      K.isPrefixOf (s.drop p) = true →
      1 + pyCount K (s.drop (p + K.length)) ≤ pyCount K s := by
  have hL : 1 ≤ K.length := List.length_pos.mpr hK
  intro n
  induction n with
  | zero =>
    intro s hs p hocc
    have : s = [] := List.length_eq_zero.mp (Nat.le_zero.mp hs)
    subst this
    rw [List.drop_nil] at hocc
    have := List.prefix_nil.mp (List.isPrefixOf_iff_prefix.mp hocc)
    exact absurd this hK
  | succ n ih =>
    intro s hs p hocc
    match s with
    | [] =>
      rw [List.drop_nil] at hocc
      have := List.prefix_nil.mp (List.isPrefixOf_iff_prefix.mp hocc)
      exact absurd this hK
    | x :: rest =>
      simp only [List.length_cons] at hs
      match p with
      | 0 =>
        rw [List.drop_zero] at hocc
        rw [pyCount_cons]
        simp only [hocc, if_true]
        have heq : (x :: rest).drop (0 + K.length) =
            rest.drop (K.length - 1) := by
          obtain ⟨L2, hL2⟩ : ∃ L2, K.length = L2 + 1 :=
            ⟨K.length - 1, by omega⟩
          rw [hL2]
          simp [List.drop_succ_cons]
        rw [heq]
      | q + 1 =>
        have hocc2 : K.isPrefixOf (rest.drop q) = true := hocc
        have heq : (x :: rest).drop (q + 1 + K.length) =
            rest.drop (q + K.length) := by
          have harith : q + 1 + K.length = (q + K.length) + 1 := by omega
          rw [harith, List.drop_succ_cons]
        rw [pyCount_cons, heq]
        by_cases hp : K.isPrefixOf (x :: rest)
        · simp only [hp, if_true]
          have heq2 : rest.drop (q + K.length) =
              (rest.drop (K.length - 1)).drop (q + 1) := by
            rw [List.drop_drop]
            congr 1
            omega
          rw [heq2]
          have := pyCount_drop_le K hK (rest.drop (K.length - 1)) (q + 1)
          omega
        · simp only [hp, if_false, Bool.false_eq_true]
          exact ih rest (by omega) q hocc2

theorem occAt_eq_isPrefixOf {text kw : Str} (hlow : lowerN kw = kw)
    (p : Nat) : occAt text kw p = kw.isPrefixOf ((lowerN text).drop p) := by
  unfold occAt
  rw [hlow, lowerN_drop]

theorem findMatches_length_le {text K : Str} (hK : K ≠ [])
    (hlow : lowerN K = K) :
    ∀ fuel start, (findMatches text K fuel start).length ≤
      pyCount K ((lowerN text).drop start) := by
  intro fuel
  induction fuel with
  | zero => intro start; simp [findMatches]
  | succ fuel ih =>
    intro start
    simp only [findMatches]
    cases hf : findMatchFrom text K (text.length + 1) start with
    | none => simp
    | some jg =>
      rcases jg with ⟨j, g⟩
      rcases findMatchFrom_sound _ _ _ _ hf with ⟨hj, htry⟩
      rcases tryGaps_sound _ _ htry with ⟨_, hocc⟩
      simp only [List.length_cons]
      have hocc2 : K.isPrefixOf ((lowerN text).drop (j + g)) = true := by
        rw [← occAt_eq_isPrefixOf hlow]
        exact hocc
      have hsplit : (lowerN text).drop (j + g) =
          ((lowerN text).drop start).drop (j + g - start) := by
        rw [List.drop_drop]
        congr 1
        omega
      rw [hsplit] at hocc2
      have hkey := countOcc_ge K hK ((lowerN text).drop start).length _
        (Nat.le_refl _) _ hocc2
      have hdd : (((lowerN text).drop start).drop (j + g - start + K.length)) =
          (lowerN text).drop (j + g + K.length) := by
        rw [List.drop_drop]
        congr 1
        omega
      rw [hdd] at hkey
      have hih := ih (j + g + K.length + maxDot text (j + g + K.length))
      have heq2 : (lowerN text).drop
            (j + g + K.length + maxDot text (j + g + K.length)) =
          ((lowerN text).drop (j + g + K.length)).drop
            (maxDot text (j + g + K.length)) := by
        rw [List.drop_drop]
      have hmono := pyCount_drop_le K hK ((lowerN text).drop (j + g + K.length))
        (maxDot text (j + g + K.length))
      rw [← heq2] at hmono
      omega

/-- C10.  A search result never carries more snippets than
`min 5 count`: the regex matches are non-overlapping, each containing
at least one occurrence, so the number of matches is at most the
occurrence count, and the list is then truncated to five.  Moreover
the bound is not tight: on `textAB` the second occurrence is absorbed
into the window of the first match, giving 1 snippet against
`min 5 2 = 2`. -/
theorem snippet_count_bound :
    (∀ (docs : List (Str × Str)) (keyword : Str) (r : SearchResult),
        keyword ≠ [] → r ∈ searchKeywordInPdfs docs keyword →
        r.occurrences.length ≤ min 5 r.count) ∧
      (searchKeywordInPdfs [(docU, textAB)] kwAB = [resAB] ∧
        resAB.occurrences.length < min 5 resAB.count) := by
  constructor
  · intro docs keyword r hk hr
    rcases mem_search hr with ⟨d, hd, hone⟩
    rcases searchOne_eq_some hone with ⟨_, hocc, hcount⟩
    have hkl : lowerN keyword ≠ [] := by simpa [lowerN] using hk
    have hlow : lowerN (lowerN keyword) = lowerN keyword := lowerN_idem _
    have hlen : (allSnippets d.2 (lowerN keyword)).length ≤
        pyCount (lowerN keyword) (lowerN d.2) := by
      unfold allSnippets
      rw [List.length_map]
      have := @findMatches_length_le d.2 (lowerN keyword) hkl hlow (d.2.length + 1) 0
      simpa using this
    rw [hocc, hcount, List.length_take]
    exact min_le_min (Nat.le_refl 5) hlen
  · exact ⟨by decide, by decide⟩

/-- Witness for C10 at `textAB`/`kwAB`. -/
theorem snippet_count_bound_witness :
    resAB.occurrences.length ≤ min 5 resAB.count :=
  snippet_count_bound.1 [(docU, textAB)] kwAB resAB (by decide) (by decide)

/-! ## Text extraction (`extract_text_from_pdf` body)

The PyPDF2 parsing step enters the model as a value: a payload either
parses into a sequence of pages — each yielding extracted text or
`none` (an image-only page, the Python page.extract_text() returning
None) — or is unreadable (a `PdfReadError`, or in 002b0f any
exception, caught and mapped to the empty string). -/

inductive PdfPayload where
  | unreadable : PdfPayload
  | pages : List (Option Str) → PdfPayload

/-- The extraction loop: text starts empty and each page appends
page.extract_text() or the empty string, in order; an unreadable
payload returns the empty string from the except handler. -/
def extractTextFromPayload : PdfPayload → Str
  | PdfPayload.unreadable => []
  | PdfPayload.pages ps => ps.foldl (fun a p => a ++ p.getD []) []

theorem foldl_append_getD :
    ∀ (ps : List (Option Str)) (acc : Str),
      ps.foldl (fun a p => a ++ p.getD []) acc =
        acc ++ (ps.map (fun p => p.getD [])).flatten := by
  intro ps
  induction ps with
  | nil => intro acc; simp
  | cons p ps ih =>
    intro acc
    simp only [List.foldl_cons, List.map_cons, List.flatten_cons, ih,
      List.append_assoc]

/-- C7.  Extraction is a total function on payloads: an unreadable
payload yields the empty string (never an exception), and a readable
one yields the concatenation, in page order, of the per-page texts,
with a page yielding no extractable text contributing the empty
segment. -/
theorem extract_total_page_order :
    extractTextFromPayload PdfPayload.unreadable = [] ∧
      ∀ ps : List (Option Str),
        extractTextFromPayload (PdfPayload.pages ps) =
          (ps.map (fun p => p.getD [])).flatten := by
  refine ⟨rfl, fun ps => ?_⟩
  show List.foldl (fun a p => a ++ p.getD []) [] ps = _
  rw [foldl_append_getD]
  rfl

/-! ## The document cache (`@st.cache_data(ttl=24*3600)`)

Modelled from the spec: the decorator and its 24-hour ttl are in the
source (002b0f line 38, 5c3fc3 line 56), but the memoization
semantics itself is library behaviour, embedded here after §4.3 of
the spec: a lookup inside the validity window returns the stored
result with no underlying call; a miss or an expired entry performs
exactly one underlying fetch+extract and stores its result — the
empty string on failure — timestamped with the current time. -/

structure CacheEntry where
  text : Str
  fetchedAt : Nat

abbrev Cache := List (Str × CacheEntry)

/-- The validity window: `ttl=24*3600` seconds. -/
def ttlSeconds : Nat := 24 * 3600

def cacheLookup (c : Cache) (k : Str) : Option CacheEntry :=
  (c.find? (fun e => decide (e.1 = k))).map Prod.snd

/-- One underlying fetch+extract, its result (empty on failure)
stored with the current timestamp; the third component counts the
underlying calls performed (always 1 here). -/
def cacheFill (fetchExtract : Str → Option Str) (now : Nat) (c : Cache)
    (k : Str) : Str × Cache × Nat :=
  match fetchExtract k with
  | some t => (t, (k, ⟨t, now⟩) :: c, 1)
  | none => ([], (k, ⟨[], now⟩) :: c, 1)

/-- Modelled from the spec: `getText` — return the cached text when a
non-expired entry exists, otherwise fetch, extract, store and
return. -/
def getText (fetchExtract : Str → Option Str) (now : Nat) (c : Cache)
    (k : Str) : Str × Cache × Nat :=
  match cacheLookup c k with
  | some e =>
    if now - e.fetchedAt ≤ ttlSeconds then (e.text, c, 0)
    else cacheFill fetchExtract now c k
  | none => cacheFill fetchExtract now c k

theorem getText_miss {c : Cache} {k : Str}
    (h : cacheLookup c k = none) (fetchExtract : Str → Option Str)
    (now : Nat) : getText fetchExtract now c k = cacheFill fetchExtract now c k := by
  unfold getText
  rw [h]

theorem cacheLookup_fill (fetchExtract : Str → Option Str) (now : Nat)
    (c : Cache) (k : Str) :
    cacheLookup (cacheFill fetchExtract now c k).2.1 k =
      some ⟨(cacheFill fetchExtract now c k).1, now⟩ := by
  cases hf : fetchExtract k <;>
    simp [cacheFill, hf, cacheLookup, List.find?]

theorem cacheFill_count (fetchExtract : Str → Option Str) (now : Nat)
    (c : Cache) (k : Str) : (cacheFill fetchExtract now c k).2.2 = 1 := by
  cases hf : fetchExtract k <;> simp [cacheFill, hf]

/-- C5.  Starting from a cache with no entry for `k`: the first
`getText` performs exactly one underlying fetch/extract; a second
call within the validity window performs none and returns the same
text — also when the fetch failed, in which case the cached (and
returned) text is empty; and a call after the window has elapsed
fetches again. -/
theorem cache_single_fetch (fetchExtract : Str → Option Str) (c : Cache)
    (k : Str) (t1 t2 t3 : Nat) (h0 : cacheLookup c k = none)
    (h2 : t2 - t1 ≤ ttlSeconds) (h3 : ttlSeconds < t3 - t1) :
    (getText fetchExtract t1 c k).2.2 = 1 ∧
      (getText fetchExtract t2 (getText fetchExtract t1 c k).2.1 k).2.2 = 0 ∧
      (getText fetchExtract t2 (getText fetchExtract t1 c k).2.1 k).1 =
        (getText fetchExtract t1 c k).1 ∧
      (fetchExtract k = none → (getText fetchExtract t1 c k).1 = []) ∧
      (getText fetchExtract t3 (getText fetchExtract t1 c k).2.1 k).2.2 = 1 := by
  rw [getText_miss h0]
  have hl := cacheLookup_fill fetchExtract t1 c k
  have h2nd : getText fetchExtract t2 (cacheFill fetchExtract t1 c k).2.1 k =
      ((cacheFill fetchExtract t1 c k).1,
        (cacheFill fetchExtract t1 c k).2.1, 0) := by
    unfold getText
    rw [hl]
    simp [h2]
  have h3rd : getText fetchExtract t3 (cacheFill fetchExtract t1 c k).2.1 k =
      cacheFill fetchExtract t3 ((cacheFill fetchExtract t1 c k).2.1) k := by
    unfold getText
    rw [hl]
    simp only
    rw [if_neg (by simp; omega)]
  refine ⟨cacheFill_count _ _ _ _, ?_, ?_, ?_, ?_⟩
  · rw [h2nd]
  · rw [h2nd]
  · intro hf
    simp [cacheFill, hf]
  · rw [h3rd]
    exact cacheFill_count _ _ _ _

/-- The always-failing fetch used by the C5 witness. -/
def fetchFail : Str → Option Str := fun _ => none

def keyK : Str := [105]

/-- The state after the first `getText` call of the C5 witness. -/
def call1 : Str × Cache × Nat := getText fetchFail 0 [] keyK

/-- Witness for C5: with a failing fetch and an empty cache, the
first call fetches once and caches the empty string, the second call
(within the window) fetches nothing and returns the same empty text,
and a call after expiry fetches again. -/
theorem cache_single_fetch_witness :
    call1.2.2 = 1 ∧
      (getText fetchFail 3600 call1.2.1 keyK).2.2 = 0 ∧
      (getText fetchFail 3600 call1.2.1 keyK).1 = call1.1 ∧
      (fetchFail keyK = none → call1.1 = []) ∧
      (getText fetchFail (ttlSeconds + 1) call1.2.1 keyK).2.2 = 1 :=
  cache_single_fetch fetchFail [] keyK 0 3600 (ttlSeconds + 1) rfl
    (by decide) (by decide)

/-! ## Link discovery

`get_all_pdf_links`: the fetched-and-parsed pages enter the model as
values — a page is its list of anchor `href` strings plus, for the
83bd0a variant, the hrefs inside a `ul.pagination` container when one
is present.  `urljoin` is an input function.  `list(set(...))` is
modelled by a keep-first deduplication (`pySet`): the Python set
iteration order is implementation defined, and no property proved
here depends on the order `pySet` picks, only on the element set and
on freedom from duplicates. -/

/-- Fuel-driven keep-first deduplication. -/
def pySetF : Nat → List Str → List Str
  | _, [] => []
  | 0, _ :: _ => []
  | f + 1, x :: xs => x :: pySetF f (xs.filter (fun y => ! decide (y = x)))

/-- Python list(set(l)). -/
def pySet (l : List Str) : List Str := pySetF l.length l

theorem pySetF_mem : ∀ (f : Nat) (l : List Str) (a : Str),
    a ∈ pySetF f l → a ∈ l := by
  intro f
  induction f with
  | zero => intro l a h; cases l <;> simp [pySetF] at h ⊢
  | succ f ih =>
    intro l a h
    match l with
    | [] => simp [pySetF] at h
    | x :: xs =>
      simp only [pySetF, List.mem_cons] at h
      rcases h with rfl | h
      · exact List.mem_cons_self _ _
      · exact List.mem_cons_of_mem _ (List.mem_of_mem_filter (ih _ _ h))

theorem pySetF_nodup : ∀ (f : Nat) (l : List Str), (pySetF f l).Nodup := by
  intro f
  induction f with
  | zero => intro l; cases l <;> simp [pySetF]
  | succ f ih =>
    intro l
    match l with
    | [] => simp [pySetF]
    | x :: xs =>
      simp only [pySetF]
      refine List.nodup_cons.mpr ⟨?_, ih _⟩
      intro hx
      have := List.of_mem_filter (pySetF_mem _ _ _ hx)
      simp at this

theorem pySet_nodup (l : List Str) : (pySet l).Nodup := pySetF_nodup _ _

/-- The string .pdf as code points. -/
def pdfExt : Str := [46, 112, 100, 102]

/-- Python href.lower().endswith(.pdf). -/
def hasPdfExt (h : Str) : Bool := pdfExt.isSuffixOf (lowerN h)

/-- The per-page link scan shared by all variants: keep the hrefs
ending in .pdf (case-insensitively) and resolve each against the
URL of the page. -/
def scanPdfLinks (urljoin : Str → Str → Str) (pageUrl : Str)
    (hrefs : List Str) : List Str :=
  (hrefs.filter hasPdfExt).map (urljoin pageUrl)

/-- Models get_all_pdf_links of the 002b0f variant (lines 26-33): filter,
resolve, return — with no deduplication. -/
def getAllPdfLinksDirect (urljoin : Str → Str → Str) (baseUrl : Str)
    (hrefs : List Str) : List Str :=
  scanPdfLinks urljoin baseUrl hrefs

/-- A fetched-and-parsed listing page of the 83bd0a variant. -/
structure Page where
  hrefs : List Str
  paginationHrefs : Option (List Str)

/-- Models get_all_pdf_links of the 83bd0a variant: scan the base page;
if a pagination container exists, fetch each distinct resolved
pagination URL once and scan it for PDF links only (a failed fetch is
skipped); return `list(set(...))` of everything.  The second
component records the URLs fetched, in order. -/
def getAllPdfLinksPaginated (urljoin : Str → Str → Str)
    (web : Str → Option Page) (baseUrl : Str) : List Str × List Str :=
  match web baseUrl with
  | none => ([], [baseUrl])
  | some page =>
    match page.paginationHrefs with
    | none => (pySet (scanPdfLinks urljoin baseUrl page.hrefs), [baseUrl])
    | some phrefs =>
      let targets := pySet (phrefs.map (urljoin baseUrl))
      let extra := (targets.map fun u =>
        match web u with
        | none => []
        | some p => scanPdfLinks urljoin u p.hrefs).flatten
      (pySet (scanPdfLinks urljoin baseUrl page.hrefs ++ extra),
        baseUrl :: targets)

/-- The distinct pagination URLs the 83bd0a variant will visit. -/
def pagTargets (urljoin : Str → Str → Str) (web : Str → Option Page)
    (baseUrl : Str) : List Str :=
  match web baseUrl with
  | none => []
  | some page =>
    match page.paginationHrefs with
    | none => []
    | some phrefs => pySet (phrefs.map (urljoin baseUrl))

/-- Erase the pagination controls of every page except the listing
page itself. -/
def stripPagination (web : Str → Option Page) (baseUrl : Str) :
    Str → Option Page :=
  fun u =>
    if u = baseUrl then web u
    else (web u).map (fun p => ⟨p.hrefs, none⟩)

/-- A resolver that returns the href unchanged (all hrefs already
absolute). -/
def idJoin : Str → Str → Str := fun _ h => h

/-- The string a.pdf as code points. -/
def dupHref : Str := [97, 46, 112, 100, 102]

/-- C6, counterexample to the claim as stated: the 002b0f discoverer
does not deduplicate — a listing page carrying the same PDF href in
two anchors yields the same identity (resolved URL) twice. -/
theorem discovery_dedup_counterexample :
    getAllPdfLinksDirect idJoin [] [dupHref, dupHref] =
        [dupHref, dupHref] ∧
      ¬ (getAllPdfLinksDirect idJoin [] [dupHref, dupHref]).Nodup :=
  ⟨by decide, by decide⟩

/-- C6 as amended.  Only the paginated (83bd0a) variant collapses
duplicates: its returned link list never contains two equal entries,
whatever the site looks like; the direct (002b0f) variant returns
duplicates as-is. -/
theorem discovery_paginated_nodup (urljoin : Str → Str → Str)
    (web : Str → Option Page) (baseUrl : Str) :
    ((getAllPdfLinksPaginated urljoin web baseUrl).1).Nodup := by
  unfold getAllPdfLinksPaginated
  cases hw : web baseUrl with
  | none => exact List.nodup_nil
  | some page =>
    rcases page with ⟨hrefs0, pag0⟩
    cases pag0 with
    | none => exact pySet_nodup _
    | some phrefs => exact pySet_nodup _

/-- The concrete site of the C8 counterexample: the listing page
`baseW` links one PDF and lists itself as a pagination target. -/
def baseW : Str := [98]

def webPagBack : Str → Option Page :=
  fun u => if u = baseW then some ⟨[dupHref], some [baseW]⟩ else none

/-- C8, counterexample to the claim as stated: the code never
excludes the already-visited listing URL from the pagination pass —
when the pagination container links back to the listing page, that
page is fetched a second time. -/
theorem pagination_revisit_counterexample :
    (getAllPdfLinksPaginated idJoin webPagBack baseW).2 =
      [baseW, baseW] := by decide

/-- C8 as amended.  The fetch trace is exactly the listing URL
followed by the distinct resolved pagination URLs of the listing page
— each fetched exactly once (the post-listing trace has no
duplicates), but with no exclusion of the listing URL itself; and
pagination targets are never scanned for further pagination: erasing
the pagination controls of every non-listing page changes neither
the result nor the trace. -/
theorem pagination_depth_one (urljoin : Str → Str → Str)
    (web : Str → Option Page) (baseUrl : Str) :
    (getAllPdfLinksPaginated urljoin web baseUrl).2 =
        baseUrl :: pagTargets urljoin web baseUrl ∧
      ((getAllPdfLinksPaginated urljoin web baseUrl).2.tail).Nodup ∧
      getAllPdfLinksPaginated urljoin (stripPagination web baseUrl) baseUrl =
        getAllPdfLinksPaginated urljoin web baseUrl := by
  have hbase : stripPagination web baseUrl baseUrl = web baseUrl := by
    unfold stripPagination
    simp
  have hfun : ∀ u, (match stripPagination web baseUrl u with
      | none => []
      | some p => scanPdfLinks urljoin u p.hrefs) =
      (match web u with
      | none => []
      | some p => scanPdfLinks urljoin u p.hrefs) := by
    intro u
    unfold stripPagination
    by_cases hu : u = baseUrl
    · simp [hu]
    · simp only [hu, if_false]
      cases web u <;> simp
  unfold getAllPdfLinksPaginated pagTargets
  rw [hbase]
  cases hw : web baseUrl with
  | none => exact ⟨rfl, List.nodup_nil, rfl⟩
  | some page =>
    rcases page with ⟨hrefs0, pag0⟩
    cases pag0 with
    | none => exact ⟨rfl, List.nodup_nil, rfl⟩
    | some phrefs =>
      have hmap : (pySet (phrefs.map (urljoin baseUrl))).map
          (fun u => match stripPagination web baseUrl u with
            | none => []
            | some p => scanPdfLinks urljoin u p.hrefs) =
          (pySet (phrefs.map (urljoin baseUrl))).map
          (fun u => match web u with
            | none => []
            | some p => scanPdfLinks urljoin u p.hrefs) :=
        List.map_congr_left fun u _ => hfun u
      refine ⟨rfl, pySet_nodup _, ?_⟩
      exact congrArg (fun z => (pySet (scanPdfLinks urljoin baseUrl hrefs0 ++
        z.flatten), baseUrl :: pySet (phrefs.map (urljoin baseUrl)))) hmap

/-! ## Outbound request configuration (C9)

Each `requests.get` call site, with whether it passes an identifying
`User-Agent` header and which `timeout` it passes (`none` = no
timeout argument: requests then waits indefinitely). -/

structure RequestConfig where
  hasUserAgentHeader : Bool
  timeoutSeconds : Option Nat
deriving DecidableEq

/-- Call requests.get(base_url) — 002b0f line 22. -/
def listingRequest002b0f : RequestConfig := ⟨false, none⟩

/-- Call requests.get(pdf_url) — 002b0f line 42. -/
def documentRequest002b0f : RequestConfig := ⟨false, none⟩

/-- Call requests.get(base_url, headers=headers, timeout=10) — 5c3fc3
line 30. -/
def listingRequest5c3fc3 : RequestConfig := ⟨true, some 10⟩

/-- Call requests.get(pdf_info[url], headers=headers, timeout=30) —
5c3fc3 line 63. -/
def documentRequest5c3fc3 : RequestConfig := ⟨true, some 30⟩

/-- Call requests.get(base_url, timeout=10) — 83bd0a line 25. -/
def listingRequest83bd0a : RequestConfig := ⟨false, some 10⟩

/-- Call requests.get(page_url, timeout=10) — 83bd0a line 43. -/
def paginationRequest83bd0a : RequestConfig := ⟨false, some 10⟩

/-- Call requests.get(pdf_url, headers=headers, timeout=10) — 83bd0a
line 66. -/
def documentRequest83bd0a : RequestConfig := ⟨true, some 10⟩

/-- Every `requests.get` call site of the pipeline. -/
def allRequests : List RequestConfig :=
  [listingRequest002b0f, documentRequest002b0f, listingRequest5c3fc3,
    documentRequest5c3fc3, listingRequest83bd0a, paginationRequest83bd0a,
    documentRequest83bd0a]

/-- C9, counterexample to the claim as stated: the 002b0f listing
fetch is one of the outbound fetches of the pipeline, yet sends no
identifying header and sets no timeout. -/
theorem request_config_counterexample :
    listingRequest002b0f ∈ allRequests ∧
      listingRequest002b0f.hasUserAgentHeader = false ∧
      listingRequest002b0f.timeoutSeconds = none :=
  ⟨by decide, rfl, rfl⟩

/-- C9 as amended.  Both 5c3fc3 fetches and the 83bd0a document
fetch set an identifying header and a bounded timeout; the 83bd0a
listing and pagination fetches set only a timeout; the 002b0f fetches
set neither.  In every variant a failed listing fetch degrades to an
empty link list rather than an uncaught exception. -/
theorem request_config_amended :
    (listingRequest5c3fc3.hasUserAgentHeader = true ∧
        listingRequest5c3fc3.timeoutSeconds = some 10) ∧
      (documentRequest5c3fc3.hasUserAgentHeader = true ∧
        documentRequest5c3fc3.timeoutSeconds = some 30) ∧
      (documentRequest83bd0a.hasUserAgentHeader = true ∧
        documentRequest83bd0a.timeoutSeconds = some 10) ∧
      (listingRequest83bd0a.hasUserAgentHeader = false ∧
        listingRequest83bd0a.timeoutSeconds = some 10) ∧
      (paginationRequest83bd0a.hasUserAgentHeader = false ∧
        paginationRequest83bd0a.timeoutSeconds = some 10) ∧
      (listingRequest002b0f.hasUserAgentHeader = false ∧
        listingRequest002b0f.timeoutSeconds = none) ∧
      (documentRequest002b0f.hasUserAgentHeader = false ∧
        documentRequest002b0f.timeoutSeconds = none) ∧
      ∀ (urljoin : Str → Str → Str) (baseUrl : Str),
        getAllPdfLinksPaginated urljoin (fun _ => none) baseUrl =
          ([], [baseUrl]) := by
  refine ⟨⟨rfl, rfl⟩, ⟨rfl, rfl⟩, ⟨rfl, rfl⟩, ⟨rfl, rfl⟩, ⟨rfl, rfl⟩,
    ⟨rfl, rfl⟩, ⟨rfl, rfl⟩, fun urljoin baseUrl => rfl⟩

end Cdsco
